import Mathlib

/-!
Shallow embedding of the mesh-processing core of cmodfix
(src/src/tools/cmod/cmodfix/cmodfix.cpp) together with proofs about it.

Vertex records are modelled as lists of byte values (List Int, one entry per
byte of the record); a mesh's vertex buffer is the list of its records, so the
C++ invariant that the buffer length is always vertexCount times stride makes
the vertex count equal to the length of the record list.  Machinery of the
celmodel library (the Mesh container, its attribute lookup, index remapping and
group addition) is not part of the source tree; those helpers are modelled
from the specification and marked as such in their doc comments.  Floating
point contents of generated vertex buffers (normals and tangents) are outside
the scope of the embedded claims; the functions that produce new meshes model
the exact index and group structure and the exact length of the new buffer,
while the generated byte contents are abstracted.
-/

namespace CmodFix

/-- Modelled from the spec: the closed enumeration of attribute meanings
(Position, Normal, Tangent, Color0, Color1, Texture0..3, PointSize and an
Invalid sentinel); the C++ enum lives in celmodel, outside the source tree.
Comparison of semantics is by enumeration value. -/
inductive VertexAttributeSemantic where
  | position
  | normal
  | tangent
  | color0
  | color1
  | texture0
  | texture1
  | texture2
  | texture3
  | pointSize
  | invalidSemantic
deriving DecidableEq

/-- Modelled from the spec: numeric value of a semantic, giving the order the
C++ enum comparison uses. -/
def VertexAttributeSemantic.toNat : VertexAttributeSemantic → Nat
  | .position => 0
  | .normal => 1
  | .tangent => 2
  | .color0 => 3
  | .color1 => 4
  | .texture0 => 5
  | .texture1 => 6
  | .texture2 => 7
  | .texture3 => 8
  | .pointSize => 9
  | .invalidSemantic => 10

/-- Modelled from the spec: the closed enumeration of attribute scalar formats
(Float1..Float4, UByte4 and an Invalid sentinel); the C++ enum lives in
celmodel, outside the source tree. -/
inductive VertexAttributeFormat where
  | float1
  | float2
  | float3
  | float4
  | ubyte4
  | invalidFormat
deriving DecidableEq

/-- Modelled from the spec: numeric value of a format, giving the order the
C++ enum comparison uses. -/
def VertexAttributeFormat.toNat : VertexAttributeFormat → Nat
  | .float1 => 0
  | .float2 => 1
  | .float3 => 2
  | .float4 => 3
  | .ubyte4 => 4
  | .invalidFormat => 5

/-- Modelled from the spec: the fixed byte size of each format
(Mesh::getVertexAttributeSize in celmodel). -/
def getVertexAttributeSize : VertexAttributeFormat → Nat
  | .float1 => 4
  | .float2 => 8
  | .float3 => 12
  | .float4 => 16
  | .ubyte4 => 4
  | .invalidFormat => 0

/-- One vertex attribute: a (semantic, format, byte offset) triple
(Mesh::VertexAttribute in celmodel, modelled from the spec). -/
structure VertexAttribute where
  semantic : VertexAttributeSemantic
  format : VertexAttributeFormat
  offset : Nat
deriving DecidableEq

instance : Inhabited VertexAttribute :=
  ⟨⟨.invalidSemantic, .invalidFormat, 0⟩⟩

/-- Embeds operator==(const Mesh::VertexAttribute&, const Mesh::VertexAttribute&)
(cmodfix.cpp lines 320-326): fieldwise equality of semantic, format and offset. -/
def attrEq (a b : VertexAttribute) : Bool :=
  a.semantic = b.semantic ∧ a.format = b.format ∧ a.offset = b.offset

/-- Embeds operator<(const Mesh::VertexAttribute&, const Mesh::VertexAttribute&)
(cmodfix.cpp lines 329-349): lexicographic by (semantic, format, offset). -/
def attrLt (a b : VertexAttribute) : Bool :=
  if a.semantic.toNat < b.semantic.toNat then true
  else if b.semantic.toNat < a.semantic.toNat then false
  else if a.format.toNat < b.format.toNat then true
  else if b.format.toNat < a.format.toNat then false
  else a.offset < b.offset

/-- A vertex description (schema): a stride in bytes and an ordered attribute
list (Mesh::VertexDescription in celmodel, modelled from the spec; its
nAttributes field is the length of the list). -/
structure VertexDescription where
  stride : Nat
  attributes : List VertexAttribute
deriving DecidableEq

instance : Inhabited VertexDescription := ⟨⟨0, []⟩⟩

/-- Embeds operator==(const Mesh::VertexDescription&, const Mesh::VertexDescription&)
(cmodfix.cpp lines 352-365): equal stride, equal attribute count, and equal
attributes pairwise. -/
def descEq (a b : VertexDescription) : Bool :=
  if a.stride ≠ b.stride ∨ a.attributes.length ≠ b.attributes.length then false
  else (a.attributes.zip b.attributes).all fun p => attrEq p.1 p.2

/-- Embeds the attribute loop of operator<(const Mesh::VertexDescription&, ...)
(cmodfix.cpp lines 381-387).  The C++ loop runs over the indices of the first
description's attribute array and reads the second description's array at the
same index; when the second array is shorter, the C++ read is past the end of
the allocation, which the model renders as the default attribute.  The
refutation below stays on inputs that return before any such read. -/
def attrListLtLoop : List VertexAttribute → List VertexAttribute → Bool
  | [], _ => false
  | a :: as, bs =>
    if attrLt a (bs.headD default) then true
    else if attrLt (bs.headD default) a then false
    else attrListLtLoop as bs.tail

/-- Embeds operator<(const Mesh::VertexDescription&, const Mesh::VertexDescription&)
(cmodfix.cpp lines 368-390), including the slip on line 378, which compares
b.nAttributes with itself instead of with a.nAttributes, so the branch that
should order a after b when a has more attributes never fires. -/
def descLt (a b : VertexDescription) : Bool :=
  if a.stride < b.stride then true
  else if b.stride < a.stride then false
  else if a.attributes.length < b.attributes.length then true
  else if b.attributes.length < b.attributes.length then false
  else attrListLtLoop a.attributes b.attributes

/-- First description of the refuting pair for the vertex-description order:
stride 8, two packed Float1 attributes. -/
def c2descA : VertexDescription :=
  ⟨8, [⟨.position, .float1, 0⟩, ⟨.color0, .float1, 4⟩]⟩

/-- Second description of the refuting pair: stride 8, a single Float1
attribute at offset 4. -/
def c2descB : VertexDescription :=
  ⟨8, [⟨.position, .float1, 4⟩]⟩

/-- Modelled from the spec: attribute lookup by semantic
(Mesh::VertexDescription::getAttribute in celmodel): the first attribute with
the requested semantic, or an invalid marker with the invalid format when the
semantic is absent. -/
def VertexDescription.getAttribute (d : VertexDescription)
    (semantic : VertexAttributeSemantic) : VertexAttribute :=
  match d.attributes.find? (fun a => a.semantic = semantic) with
  | some a => a
  | none => ⟨.invalidSemantic, .invalidFormat, 0⟩

/-- Embeds augmentVertexDescription's loop over the existing attributes
(cmodfix.cpp lines 558-576): an attribute whose semantic matches but whose
format differs is dropped; every other attribute is kept, re-packed at the
running stride; the third component records whether an exact semantic match
was kept. -/
def augmentLoop (semantic : VertexAttributeSemantic) (format : VertexAttributeFormat) :
    List VertexAttribute → Nat → List VertexAttribute × Nat × Bool
  | [], stride => ([], stride, false)
  | a :: as, stride =>
    if a.semantic = semantic ∧ a.format ≠ format then
      augmentLoop semantic format as stride
    else
      let rest := augmentLoop semantic format as (stride + getVertexAttributeSize a.format)
      (⟨a.semantic, a.format, stride⟩ :: rest.1, rest.2.1,
        rest.2.2 || (a.semantic = semantic : Bool))

/-- Embeds augmentVertexDescription (cmodfix.cpp lines 548-590): re-packs the
kept attributes from a running stride of 0 and, when no attribute with the
requested semantic and format was kept, appends the new attribute at the end
with offset equal to the running stride. -/
def augmentVertexDescription (d : VertexDescription)
    (semantic : VertexAttributeSemantic) (format : VertexAttributeFormat) :
    VertexDescription :=
  let r := augmentLoop semantic format d.attributes 0
  if r.2.2 then ⟨r.2.1, r.1⟩
  else ⟨r.2.1 + getVertexAttributeSize format, r.1 ++ [⟨semantic, format, r.2.1⟩]⟩

/-- Total byte size of an attribute list; the stride of a schema whose
attributes are packed back to back. -/
def sizeSum (l : List VertexAttribute) : Nat :=
  (l.map fun a => getVertexAttributeSize a.format).sum

/-- A packed attribute list starting at byte s: each attribute's offset is the
running sum of the sizes of the attributes before it. -/
def packedFrom : Nat → List VertexAttribute → Bool
  | _, [] => true
  | s, a :: rest => a.offset = s && packedFrom (s + getVertexAttributeSize a.format) rest

/-- A packed schema: offsets are the running byte sums starting at 0 and the
stride is the total attribute size. -/
def VertexDescription.packed (d : VertexDescription) : Bool :=
  packedFrom 0 d.attributes && d.stride = sizeSum d.attributes

/-- Modelled from the spec: the primitive kinds of a group
(Mesh::PrimitiveGroupType in celmodel): triangle lists, strips and fans plus
an invalid sentinel. -/
inductive PrimitiveGroupType where
  | triList
  | triStrip
  | triFan
  | invalidPrimitiveGroupType
deriving DecidableEq

/-- A primitive group: a primitive kind, a material index and an index list
into the owning mesh's vertex array (Mesh::PrimitiveGroup in celmodel,
modelled from the spec; nIndices is the length of the list). -/
structure PrimitiveGroup where
  prim : PrimitiveGroupType
  materialIndex : Nat
  indices : List Nat
deriving DecidableEq

instance : Inhabited PrimitiveGroup := ⟨⟨.invalidPrimitiveGroupType, 0, []⟩⟩

/-- One vertex record: the stride bytes of the interleaved vertex buffer that
belong to one vertex, as a list of byte values. -/
abbrev Rec := List Int

/-- A mesh: its schema, its vertex buffer as a list of records, and its
primitive groups (cmod Mesh, modelled from the spec).  The C++ mesh stores the
buffer as raw bytes together with a vertex count; since the buffer length is
always vertexCount times stride, the vertex count is the length of the record
list. -/
structure Mesh where
  vertexDesc : VertexDescription
  vertexData : List Rec
  groups : List PrimitiveGroup
deriving DecidableEq

instance : Inhabited Mesh := ⟨⟨default, [], []⟩⟩

/-- A model: an ordered list of meshes and an ordered list of materials;
materials are opaque to the core and modelled as bare tokens (cmod Model,
modelled from the spec). -/
structure Model where
  meshes : List Mesh
  materials : List Nat
deriving DecidableEq

/-- Embeds FullComparator::compare (cmodfix.cpp lines 102-115): lexicographic
comparison of the bytes of two records.  Both records of a mesh have exactly
stride bytes; the nil cases extend the comparison lexicographically. -/
def byteLt : Rec → Rec → Bool
  | [], [] => false
  | [], _ :: _ => true
  | _ :: _, [] => false
  | a :: as, b :: bs =>
    if a < b then true
    else if b < a then false
    else byteLt as bs

/-- Embeds equal(const Vertex&, const Vertex&, uint32_t) (cmodfix.cpp lines
296-308): bytewise equality of two records. -/
def bytesEq : Rec → Rec → Bool
  | [], [] => true
  | [], _ :: _ => false
  | _ :: _, [] => false
  | a :: as, b :: bs => a = b && bytesEq as bs

/-- The strict byte order as a relation on records. -/
def ByteLtP (r s : Rec) : Prop := byteLt r s = true

/-- The comparison std::sort is given in uniquifyVertices: vertex views are
(index, record) pairs ordered by FullComparator on the record, stated as the
complementary non-strict relation the sorted result satisfies. -/
def RecLe (a b : Nat × Rec) : Prop := byteLt b.2 a.2 = false

instance : DecidableRel RecLe := fun a b => by unfold RecLe; infer_instance

/-- The array of vertex views uniquifyVertices builds (cmodfix.cpp lines
423-428): one (index, pointer to record) pair per vertex. -/
def mkVertices (m : Mesh) : List (Nat × Rec) :=
  (List.range m.vertexData.length).map fun i => (i, m.vertexData.getD i [])

/-- Embeds the run counting of the unique-vertex loop for the elements after
the first (cmodfix.cpp lines 434-439): one per position whose record differs
from its predecessor in the sorted order. -/
def countUniqueAux : Rec → List (Nat × Rec) → Nat
  | _, [] => 0
  | prev, v :: vs => (if bytesEq prev v.2 then 0 else 1) + countUniqueAux v.2 vs

/-- Embeds the unique-vertex count of uniquifyVertices (cmodfix.cpp lines
434-439): the first sorted element always counts. -/
def countUnique : List (Nat × Rec) → Nat
  | [] => 0
  | v :: vs => 1 + countUniqueAux v.2 vs

/-- Embeds the compacted-buffer side of the remap loop (cmodfix.cpp lines
450-462) after its first element: the record of each element that starts a new
run of distinct records is appended to the new buffer. -/
def buildDataAux : Nat × Rec → List (Nat × Rec) → List Rec
  | _, [] => []
  | prev, v :: vs =>
    if bytesEq prev.2 v.2 then buildDataAux v vs
    else v.2 :: buildDataAux v vs

/-- The compacted vertex buffer of uniquifyVertices: the first sorted record
followed by the records of the later run starts. -/
def newDataOf : List (Nat × Rec) → List Rec
  | [] => []
  | v :: vs => v.2 :: buildDataAux v vs

/-- Embeds the vertexMap side of the remap loop (cmodfix.cpp lines 450-462)
after its first element: every element receives the new index j of its run,
where j is incremented at each run start. -/
def buildMapAux : Nat × Rec → Nat → List (Nat × Rec) → List (Nat × Nat)
  | _, _, [] => []
  | prev, j, v :: vs =>
    if bytesEq prev.2 v.2 then (v.1, j) :: buildMapAux v j vs
    else (v.1, j + 1) :: buildMapAux v (j + 1) vs

/-- The vertexMap of uniquifyVertices as an association list from old vertex
index to new vertex index; the first sorted element maps to new index 0. -/
def vertexMapOf : List (Nat × Rec) → List (Nat × Nat)
  | [] => []
  | v :: vs => (v.1, 0) :: buildMapAux v 0 vs

/-- Reading the vertexMap array at an index: the value stored for that key. -/
def lookupMap : List (Nat × Nat) → Nat → Nat
  | [], _ => 0
  | (a, b) :: rest, i => if a = i then b else lookupMap rest i

/-- Embeds uniquifyVertices (cmodfix.cpp lines 410-470): sort the (index,
record) views by the full byte comparator, count the distinct records, return
the mesh unchanged when nothing collapses, and otherwise replace the vertex
buffer with the compacted records and remap every primitive group's indices
through the vertexMap (Mesh::setVertices and Mesh::remapIndices are celmodel
helpers, modelled from the spec as buffer replacement and per-index
substitution). -/
def uniquifyVertices (m : Mesh) : Mesh :=
  if m.vertexData.length = 0 then m
  else
    let sorted := List.insertionSort RecLe (mkVertices m)
    if countUnique sorted = m.vertexData.length then m
    else
      { m with
        vertexData := newDataOf sorted,
        groups := m.groups.map fun g =>
          { g with indices := g.indices.map (lookupMap (vertexMapOf sorted)) } }

/-- Embeds the TriList case of face extraction (cmodfix.cpp lines 714-725),
parametric in the element type: consecutive triples of the index list. -/
def triListTriples {β : Type} : List β → List (β × β × β)
  | a :: b :: c :: rest => (a, b, c) :: triListTriples rest
  | _ => []

/-- Embeds the body of the TriStrip case of face extraction (cmodfix.cpp lines
727-747) from position j onward, carrying whether j is even and the two
previous elements: even j yields (i[j-2], i[j-1], i[j]), odd j yields
(i[j-1], i[j-2], i[j]). -/
def triStripAux {β : Type} : Bool → β → β → List β → List (β × β × β)
  | _, _, _, [] => []
  | jEven, a, b, c :: rest =>
    (if jEven then (a, b, c) else (b, a, c)) :: triStripAux (!jEven) b c rest

/-- Embeds the TriStrip case of face extraction: the walk starts at j = 2,
which is even. -/
def triStripTriples {β : Type} : List β → List (β × β × β)
  | a :: b :: rest => triStripAux true a b rest
  | _ => []

/-- Embeds the body of the TriFan case of face extraction (cmodfix.cpp lines
749-760): (i[0], i[j-1], i[j]) for j from 2. -/
def triFanAux {β : Type} : β → β → List β → List (β × β × β)
  | _, _, [] => []
  | hub, prev, c :: rest => (hub, prev, c) :: triFanAux hub c rest

/-- Embeds the TriFan case of face extraction. -/
def triFanTriples {β : Type} : List β → List (β × β × β)
  | hub :: b :: rest => triFanAux hub b rest
  | _ => []

/-- Face extraction for one primitive group by its kind; the invalid kind
yields no faces (the callers reject it before extraction). -/
def groupTriples {β : Type} (prim : PrimitiveGroupType) (l : List β) :
    List (β × β × β) :=
  match prim with
  | .triList => triListTriples l
  | .triStrip => triStripTriples l
  | .triFan => triFanTriples l
  | .invalidPrimitiveGroupType => []

/-- The flat face list of a mesh built by the normal pass (cmodfix.cpp lines
707-766): the groups' triangles in group order, each triangle a triple of
vertex attribute indices. -/
def extractFaces (m : Mesh) : List (Nat × Nat × Nat) :=
  m.groups.flatMap fun g => groupTriples g.prim g.indices

/-- The size joinVertices gives its merge map (cmodfix.cpp lines 610 and 630):
three entries per extracted face. -/
def joinVerticesMapSize (faces : List (Nat × Nat × Nat)) : Nat :=
  faces.length * 3

/-- The indices at which joinVertices reads or writes its merge map
(cmodfix.cpp lines 641 and 648): every face corner's vertex attribute index,
used both to store the run representative and to read the merged point
index. -/
def joinVerticesMapAccesses (faces : List (Nat × Nat × Nat)) : List Nat :=
  faces.flatMap fun t => [t.1, t.2.1, t.2.2]

/-- Embeds the per-group validation and face counting of generateNormals
(cmodfix.cpp lines 676-700): a TriList needs at least three indices and a
multiple of three and contributes nIndices divided by 3 faces; a strip or fan
needs at least three indices and contributes nIndices minus 2 faces; any other
kind is an error. -/
def checkedFaceCount (g : PrimitiveGroup) : Option Nat :=
  match g.prim with
  | .triList =>
    if g.indices.length < 3 ∨ g.indices.length % 3 ≠ 0 then none
    else some (g.indices.length / 3)
  | .triStrip | .triFan =>
    if g.indices.length < 3 then none else some (g.indices.length - 2)
  | .invalidPrimitiveGroupType => none

/-- The total face count of generateNormals over all groups, failing on the
first invalid group (cmodfix.cpp lines 670-701). -/
def meshFaceCount : List PrimitiveGroup → Option Nat
  | [] => some 0
  | g :: gs =>
    match checkedFaceCount g, meshFaceCount gs with
    | some a, some b => some (a + b)
    | _, _ => none

/-- Embeds the per-group face count of the output-group loop (cmodfix.cpp
lines 926-940): nIndices divided by 3 for a TriList, nIndices minus 2 for a
strip or fan; the default case is unreachable after validation. -/
def groupFaceCount (g : PrimitiveGroup) : Nat :=
  match g.prim with
  | .triList => g.indices.length / 3
  | .triStrip | .triFan => g.indices.length - 2
  | .invalidPrimitiveGroupType => 0

/-- Embeds the output-group loop shared by generateNormals and
generateTangents (cmodfix.cpp lines 917-944 and 1194-1221): the index buffer
of the new mesh is the identity list on 3 times the face count, and the k-th
output group is a TriList with the k-th input group's material index owning
the faceCount times 3 consecutive identity indices that start where the
previous group ended. -/
def buildTriListGroups : Nat → List PrimitiveGroup → List PrimitiveGroup
  | _, [] => []
  | firstIndex, g :: gs =>
    ⟨.triList, g.materialIndex, List.range' firstIndex (groupFaceCount g * 3)⟩ ::
      buildTriListGroups (firstIndex + groupFaceCount g * 3) gs

/-- Embeds the mesh-level structure of generateNormals (cmodfix.cpp lines
653-956): fail unless the position attribute is Float3, fail on any invalid
group, and otherwise build a new mesh whose schema is the input schema
augmented with a Float3 normal, whose vertex buffer holds one record per face
corner, and whose groups are the sequential TriList groups.  The smoothing
angle and the weld flag only influence the floating-point contents of the
generated records, which are abstracted (empty placeholder records of the
correct count); the index and group structure modelled here does not depend on
them. -/
def generateNormals (m : Mesh) : Option Mesh :=
  if (m.vertexDesc.getAttribute .position).format ≠ .float3 then none
  else
    match meshFaceCount m.groups with
    | none => none
    | some nFaces =>
      some
        { vertexDesc := augmentVertexDescription m.vertexDesc .normal .float3,
          vertexData := List.replicate (nFaces * 3) [],
          groups := buildTriListGroups 0 m.groups }

/-- Embeds the face counting of generateTangents (cmodfix.cpp lines 994-1009):
every group must be a TriList; each contributes nIndices divided by 3
faces. -/
def tangentFaceCount : List PrimitiveGroup → Option Nat
  | [] => some 0
  | g :: gs =>
    if g.prim = .triList then
      match tangentFaceCount gs with
      | some b => some (g.indices.length / 3 + b)
      | none => none
    else none

/-- Embeds the mesh-level structure of generateTangents (cmodfix.cpp lines
959-1233): fail unless position is Float3, normal is Float3 and Texture0 is
present with format Float2; fail when any group is not a TriList; otherwise
build a new mesh whose schema is the input schema augmented with a Float3
tangent, one record per face corner, and the sequential TriList groups.  As
with generateNormals, the floating point record contents are abstracted. -/
def generateTangents (m : Mesh) : Option Mesh :=
  if (m.vertexDesc.getAttribute .position).format ≠ .float3 then none
  else if (m.vertexDesc.getAttribute .normal).format ≠ .float3 then none
  else if (m.vertexDesc.getAttribute .texture0).format = .invalidFormat then none
  else if (m.vertexDesc.getAttribute .texture0).format ≠ .float2 then none
  else
    match tangentFaceCount m.groups with
    | none => none
    | some nFaces =>
      some
        { vertexDesc := augmentVertexDescription m.vertexDesc .tangent .float3,
          vertexData := List.replicate (nFaces * 3) [],
          groups := buildTriListGroups 0 m.groups }

/-- Embeds addGroupWithOffset (cmodfix.cpp lines 1236-1250): a group with no
indices is dropped; otherwise a copy of the group with every index shifted by
the offset is appended to the mesh's group list (Mesh::addGroup is a celmodel
helper, modelled from the spec as appending). -/
def addGroupWithOffset (m : Mesh) (g : PrimitiveGroup) (offset : Nat) : Mesh :=
  if g.indices.length = 0 then m
  else
    { m with
      groups := m.groups ++ [⟨g.prim, g.materialIndex, g.indices.map (· + offset)⟩] }

/-- The comparison std::sort is given in mergeModelMeshes
(MeshVertexDescComparator, cmodfix.cpp lines 393-406), stated as the
complementary non-strict relation on meshes. -/
def MeshLe (a b : Mesh) : Prop := descLt b.vertexDesc a.vertexDesc = false

instance : DecidableRel MeshLe := fun a b => by unfold MeshLe; infer_instance

/-- Embeds the run finding of mergeModelMeshes (cmodfix.cpp lines 1276-1291):
each run is the first remaining mesh together with the following consecutive
meshes whose vertex description equals the first one's. -/
def groupRuns : List Mesh → List (List Mesh)
  | [] => []
  | m :: rest =>
    (m :: rest.takeWhile fun x => descEq x.vertexDesc m.vertexDesc) ::
      groupRuns (rest.dropWhile fun x => descEq x.vertexDesc m.vertexDesc)
termination_by l => l.length
decreasing_by
  exact Nat.lt_succ_of_le (List.dropWhile_sublist _ (l := rest)).length_le

/-- Embeds the group-merging loop over one run of mergeModelMeshes
(cmodfix.cpp lines 1309-1324): for each source mesh in run order, each of its
groups is added through addGroupWithOffset with the running vertex count, and
the running count then grows by the mesh's vertex count. -/
def mergeMeshLoop : Mesh → Nat → List Mesh → Mesh
  | acc, _, [] => acc
  | acc, off, mesh :: rest =>
    mergeMeshLoop (mesh.groups.foldl (fun a g => addGroupWithOffset a g off) acc)
      (off + mesh.vertexData.length) rest

/-- Embeds the merged mesh built for one run (cmodfix.cpp lines 1293-1325):
the run's shared vertex description, the concatenated vertex buffers, and the
groups added by the merging loop. -/
def mergeRunMesh (rs : List Mesh) : Mesh :=
  mergeMeshLoop
    ⟨(rs.headD default).vertexDesc, (rs.map fun x => x.vertexData).flatten, []⟩ 0 rs

/-- Embeds mergeModelMeshes (cmodfix.cpp lines 1254-1333): sort the meshes by
vertex description, copy the materials in order, and emit one merged mesh per
run of equal descriptions. -/
def mergeModelMeshes (model : Model) : Model :=
  { meshes := (groupRuns (List.insertionSort MeshLe model.meshes)).map mergeRunMesh,
    materials := model.materials }

/-- Follows the spec's words, for comparison with the merge embedding: the
groups a merged run should carry, in source order, where every group with no
indices is omitted and every other group keeps its kind and material index and
has its indices rebased by the running vertex offset of its source mesh. -/
def mergedGroupsSpec : Nat → List Mesh → List PrimitiveGroup
  | _, [] => []
  | off, mesh :: rest =>
    (mesh.groups.filterMap fun g =>
      if g.indices.length = 0 then none
      else some ⟨g.prim, g.materialIndex, g.indices.map (· + off)⟩) ++
      mergedGroupsSpec (off + mesh.vertexData.length) rest

/-- A rational 3-vector, standing in for the float Vector3f of the smoothing
loop; the refutations below use values on which float arithmetic is exact. -/
structure Vec3 where
  x : ℚ
  y : ℚ
  z : ℚ
deriving DecidableEq

/-- Componentwise vector addition. -/
def addV (a b : Vec3) : Vec3 := ⟨a.x + b.x, a.y + b.y, a.z + b.z⟩

/-- The dot product. -/
def dotV (a b : Vec3) : ℚ := a.x * b.x + a.y * b.y + a.z * b.z

/-- The zero vector. -/
def zeroV : Vec3 := ⟨0, 0, 0⟩

/-- Embeds the accumulation loop of averageFaceVectors (cmodfix.cpp lines
506-513): starting from zero, the loop walks the adjacency list of the corner
and adds the normal of face f whenever f is the face itself or the dot product
of this face's normal with f's normal is strictly greater than the smoothing
threshold.  The subsequent normalisation (lines 515-518) rescales the sum and
does not change which faces were included. -/
def averageFaceVectorsSum (faces : List Vec3) (thisFace : Nat)
    (vertexFaces : List Nat) (cosSmoothingAngle : ℚ) : Vec3 :=
  vertexFaces.foldl
    (fun v f =>
      if f = thisFace ∨ dotV (faces.getD thisFace zeroV) (faces.getD f zeroV) >
          cosSmoothingAngle
      then addV v (faces.getD f zeroV)
      else v)
    zeroV

/-- Every index of every primitive group of a mesh is below the mesh's vertex
count: the invariant of the bounds claims. -/
def meshIndexInv (m : Mesh) : Prop :=
  ∀ g ∈ m.groups, ∀ i ∈ g.indices, i < m.vertexData.length

instance : DecidablePred meshIndexInv := fun m => by
  unfold meshIndexInv
  infer_instance

/-- A one-byte-stride schema used by the concrete deduplication examples. -/
def byteDesc : VertexDescription := ⟨1, [⟨.position, .float1, 0⟩]⟩

/-- Concrete mesh with two distinct one-byte records: deduplication leaves it
unchanged. -/
def c4mesh : Mesh := ⟨byteDesc, [[0], [1]], [⟨.triList, 0, [0, 1, 0]⟩]⟩

/-- Concrete mesh with a duplicated record, for exercising the remapping
branch of deduplication. -/
def c5mesh : Mesh := ⟨byteDesc, [[5], [5], [7]], [⟨.triList, 2, [0, 1, 2]⟩]⟩

/-- A packed position-only Float3 schema with stride 12. -/
def posDesc : VertexDescription := ⟨12, [⟨.position, .float3, 0⟩]⟩

/-- Concrete mesh with a triangle list and a triangle fan, used to exercise
normal generation; the record contents play no role in the index and group
structure. -/
def c3mesh : Mesh :=
  ⟨posDesc, [[], [], [], []], [⟨.triList, 4, [0, 1, 2]⟩, ⟨.triFan, 7, [0, 1, 2, 3]⟩]⟩

/-- A packed position, normal, Texture0 schema, satisfying every tangent
prerequisite. -/
def tangentDesc : VertexDescription :=
  ⟨32, [⟨.position, .float3, 0⟩, ⟨.normal, .float3, 12⟩, ⟨.texture0, .float2, 24⟩]⟩

/-- Concrete all-TriList mesh satisfying the tangent prerequisites. -/
def c7mesh : Mesh := ⟨tangentDesc, [[], [], []], [⟨.triList, 1, [0, 1, 2]⟩]⟩

/-- Concrete model with two meshes of the same schema, for the merge bounds
witness. -/
def c1model : Model :=
  ⟨[⟨byteDesc, [[0], [1]], [⟨.triList, 0, [0, 1, 1]⟩, ⟨.triStrip, 3, []⟩]⟩,
    ⟨byteDesc, [[2]], [⟨.triFan, 5, [0, 0, 0]⟩]⟩], [4]⟩

/-- Concrete mesh on which the merge-map of the welding pass is indexed out of
bounds: four vertices but a single triangle, whose corner index 3 is not below
the merge-map size of 3. -/
def c9mesh : Mesh := ⟨posDesc, [[], [], [], []], [⟨.triList, 0, [0, 1, 3]⟩]⟩

/-- A schema that is not packed: its single attribute sits at offset 4 and its
stride 16 leaves padding. -/
def c8desc : VertexDescription := ⟨16, [⟨.position, .float3, 4⟩]⟩

/-- First face normal of the tie-policy refutation. -/
def c6n0 : Vec3 := ⟨1, 0, 0⟩

/-- Second face normal of the tie-policy refutation; its dot product with the
first is exactly the smoothing threshold 0 used below. -/
def c6n1 : Vec3 := ⟨0, 1, 0⟩

theorem bytesEq_iff {a b : Rec} : bytesEq a b = true ↔ a = b := by
  induction a generalizing b with
  | nil => cases b <;> simp [bytesEq]
  | cons x xs ih =>
    cases b with
    | nil => simp [bytesEq]
    | cons y ys => simp [bytesEq, ih]

theorem byteLt_irrefl (a : Rec) : byteLt a a = false := by
  induction a with
  | nil => rfl
  | cons x xs ih => simp [byteLt, ih]

theorem byteLt_connex {a b : Rec} (hab : byteLt a b = false)
    (hba : byteLt b a = false) : a = b := by
  induction a generalizing b with
  | nil => cases b with
    | nil => rfl
    | cons y ys => simp [byteLt] at hab
  | cons x xs ih =>
    cases b with
    | nil => simp [byteLt] at hba
    | cons y ys =>
      simp only [byteLt] at hab hba
      by_cases h1 : x < y
      · simp [h1] at hab
      · by_cases h2 : y < x
        · simp [h1, h2] at hba
        · have hxy : x = y := by omega
          subst hxy
          simp [lt_self_iff_false] at hab hba
          rw [ih hab hba]

theorem byteLt_trans {a b c : Rec} (hab : byteLt a b = true)
    (hbc : byteLt b c = true) : byteLt a c = true := by
  induction a generalizing b c with
  | nil =>
    cases b with
    | nil => simp [byteLt] at hab
    | cons y ys =>
      cases c with
      | nil => simp [byteLt] at hbc
      | cons z zs => simp [byteLt]
  | cons x xs ih =>
    cases b with
    | nil => simp [byteLt] at hab
    | cons y ys =>
      cases c with
      | nil => simp [byteLt] at hbc
      | cons z zs =>
        simp only [byteLt] at hab hbc ⊢
        by_cases h1 : x < y
        · by_cases h3 : y < z
          · simp [lt_trans h1 h3]
          · by_cases h4 : z < y
            · simp [h3, h4] at hbc
            · have hyz : y = z := by omega
              subst hyz
              simp [h1]
        · by_cases h2 : y < x
          · simp [h1, h2] at hab
          · have hxy : x = y := by omega
            subst hxy
            simp [lt_self_iff_false] at hab
            by_cases h3 : x < z
            · simp [h3]
            · by_cases h4 : z < x
              · simp [h3, h4] at hbc
              · have hxz : x = z := by omega
                subst hxz
                simp [lt_self_iff_false] at hbc ⊢
                exact ih hab hbc

theorem byteLt_asymm {a b : Rec} (h : byteLt a b = true) : byteLt b a = false := by
  cases hba : byteLt b a with
  | false => rfl
  | true =>
    have := byteLt_trans h hba
    rw [byteLt_irrefl] at this
    simp at this

instance : IsTotal (Nat × Rec) RecLe :=
  ⟨fun a b => by
    unfold RecLe
    cases h : byteLt b.2 a.2
    · exact Or.inl rfl
    · exact Or.inr (byteLt_asymm h)⟩

instance : IsTrans (Nat × Rec) RecLe :=
  ⟨fun a b c hab hbc => by
    unfold RecLe at *
    cases hca : byteLt c.2 a.2 with
    | false => rfl
    | true =>
      cases hval : byteLt a.2 b.2 with
      | false =>
        have heq : a.2 = b.2 := byteLt_connex hval hab
        rw [heq] at hca
        rw [hca] at hbc
        simp at hbc
      | true =>
        have := byteLt_trans hca hval
        rw [this] at hbc
        simp at hbc⟩

instance : IsTrans Rec ByteLtP := ⟨fun _ _ _ => byteLt_trans⟩

theorem map_getD_range {α : Type} (d : α) :
    ∀ l : List α, (List.range l.length).map (fun i => l.getD i d) = l
  | [] => rfl
  | a :: l => by
    rw [List.length_cons, List.range_succ_eq_map]
    simp only [List.map_cons, List.getD_cons_zero, List.map_map]
    congr 1
    have hc : ((fun i => (a :: l).getD i d) ∘ Nat.succ) = fun i => l.getD i d := by
      funext i
      simp [List.getD_cons_succ]
    rw [hc, map_getD_range d l]

theorem mkVertices_length (m : Mesh) :
    (mkVertices m).length = m.vertexData.length := by
  simp [mkVertices]

theorem map_snd_mkVertices (m : Mesh) :
    (mkVertices m).map (fun v => v.2) = m.vertexData := by
  unfold mkVertices
  rw [List.map_map]
  exact map_getD_range [] m.vertexData

theorem map_fst_mkVertices (m : Mesh) :
    (mkVertices m).map (fun v => v.1) = List.range m.vertexData.length := by
  unfold mkVertices
  rw [List.map_map]
  have hc : ((fun v : Nat × Rec => v.1) ∘ fun i => (i, m.vertexData.getD i [])) =
      fun i : Nat => i := rfl
  rw [hc]
  simp

theorem mem_mkVertices {m : Mesh} {p : Nat × Rec} :
    p ∈ mkVertices m ↔ p.1 < m.vertexData.length ∧ p.2 = m.vertexData.getD p.1 [] := by
  unfold mkVertices
  constructor
  · intro h
    rcases List.mem_map.mp h with ⟨i, hi, hp⟩
    rcases hp
    exact ⟨List.mem_range.mp hi, rfl⟩
  · intro ⟨h1, h2⟩
    refine List.mem_map.mpr ⟨p.1, List.mem_range.mpr h1, ?_⟩
    rw [← h2]

theorem chain_buildDataAux :
    ∀ (vs : List (Nat × Rec)) (prev : Nat × Rec),
      List.Chain' RecLe (prev :: vs) →
      List.Chain' ByteLtP (prev.2 :: buildDataAux prev vs)
  | [], prev, _ => by simp [buildDataAux]
  | v :: vs, prev, h => by
    rcases List.chain'_cons.mp h with ⟨hpv, h2⟩
    cases heq : bytesEq prev.2 v.2 with
    | true =>
      have hpe : prev.2 = v.2 := bytesEq_iff.mp heq
      have := chain_buildDataAux vs v h2
      rw [buildDataAux, heq]
      simpa [hpe] using this
    | false =>
      have hlt : ByteLtP prev.2 v.2 := by
        cases hval : byteLt prev.2 v.2 with
        | false =>
          have := byteLt_connex hval hpv
          rw [bytesEq_iff.mpr this] at heq
          exact absurd heq (by simp)
        | true => exact hval
      rw [buildDataAux, heq]
      exact List.chain'_cons.mpr ⟨hlt, chain_buildDataAux vs v h2⟩

theorem nodup_of_chain_byteLt :
    ∀ {l : List Rec}, List.Chain' ByteLtP l → l.Nodup := by
  intro l h
  have hp : List.Pairwise ByteLtP l := (List.chain'_iff_pairwise).mp h
  exact hp.imp fun hlt => by
    intro heq
    unfold ByteLtP at hlt
    rw [heq, byteLt_irrefl] at hlt
    exact absurd hlt (by simp)

theorem nodup_newDataOf_sorted (m : Mesh) :
    (newDataOf (List.insertionSort RecLe (mkVertices m))).Nodup := by
  have hs : List.Sorted RecLe (List.insertionSort RecLe (mkVertices m)) :=
    List.sorted_insertionSort RecLe (mkVertices m)
  cases hval : List.insertionSort RecLe (mkVertices m) with
  | nil => simp [newDataOf]
  | cons v vs =>
    rw [hval] at hs
    have hchain : List.Chain' RecLe (v :: vs) := List.Pairwise.chain' hs
    exact nodup_of_chain_byteLt (chain_buildDataAux vs v hchain)

theorem countUniqueAux_eq_length :
    ∀ (vs : List (Nat × Rec)) (prev : Rec),
      List.Chain' (fun r s : Rec => r ≠ s) (prev :: vs.map (fun v => v.2)) →
      countUniqueAux prev vs = vs.length
  | [], _, _ => rfl
  | v :: vs, prev, h => by
    rw [List.map_cons] at h
    rcases List.chain'_cons.mp h with ⟨hne, h2⟩
    have heq : bytesEq prev v.2 = false := by
      cases hval : bytesEq prev v.2 with
      | false => rfl
      | true => exact absurd (bytesEq_iff.mp hval) hne
    rw [countUniqueAux, heq, countUniqueAux_eq_length vs v.2 h2]
    simp [Nat.add_comm]

theorem uniquifyVertices_eq_self {m : Mesh} (h : m.vertexData.Nodup) :
    uniquifyVertices m = m := by
  unfold uniquifyVertices
  by_cases h0 : m.vertexData.length = 0
  · rw [if_pos h0]
  · rw [if_neg h0]
    have hperm : (List.insertionSort RecLe (mkVertices m)).Perm (mkVertices m) :=
      List.perm_insertionSort _ _
    have hlen : (List.insertionSort RecLe (mkVertices m)).length = m.vertexData.length := by
      rw [hperm.length_eq, mkVertices_length]
    have hmapperm :
        ((List.insertionSort RecLe (mkVertices m)).map (fun v => v.2)).Perm m.vertexData := by
      have := hperm.map (fun v => v.2)
      rwa [map_snd_mkVertices] at this
    have hnd : ((List.insertionSort RecLe (mkVertices m)).map (fun v => v.2)).Nodup :=
      hmapperm.nodup_iff.mpr h
    have hcu : countUnique (List.insertionSort RecLe (mkVertices m)) =
        m.vertexData.length := by
      cases hs : List.insertionSort RecLe (mkVertices m) with
      | nil =>
        rw [hs] at hlen
        exact absurd hlen.symm h0
      | cons v vs =>
        rw [hs] at hlen hnd
        rw [List.map_cons] at hnd
        have hchain : List.Chain' (fun r s : Rec => r ≠ s) (v.2 :: vs.map (fun x => x.2)) :=
          List.Pairwise.chain' hnd
        rw [countUnique, countUniqueAux_eq_length vs v.2 hchain]
        simp at hlen
        omega
    simp only [hcu, if_pos]

theorem buildMapAux_keys :
    ∀ (vs : List (Nat × Rec)) (prev : Nat × Rec) (j : Nat),
      (buildMapAux prev j vs).map (fun e => e.1) = vs.map (fun v => v.1)
  | [], _, _ => rfl
  | v :: vs, prev, j => by
    rw [buildMapAux]
    cases bytesEq prev.2 v.2 <;>
      simp [buildMapAux_keys vs v]

theorem vertexMapOf_keys (sorted : List (Nat × Rec)) :
    (vertexMapOf sorted).map (fun e => e.1) = sorted.map (fun v => v.1) := by
  cases sorted with
  | nil => rfl
  | cons v vs => simp [vertexMapOf, buildMapAux_keys]

theorem lookupMap_mem :
    ∀ (l : List (Nat × Nat)) (i : Nat),
      i ∈ l.map (fun e => e.1) → (i, lookupMap l i) ∈ l
  | [], i, h => by simp at h
  | (a, b) :: rest, i, h => by
    by_cases hai : a = i
    · rw [lookupMap, if_pos hai, hai]
      exact List.mem_cons_self _ _
    · rw [lookupMap, if_neg hai]
      rcases List.mem_map.mp h with ⟨e, he, hei⟩
      rcases List.mem_cons.mp he with rfl | he2
      · exact absurd hei hai
      · exact List.mem_cons_of_mem _
          (lookupMap_mem rest i (List.mem_map.mpr ⟨e, he2, hei⟩))

theorem buildMapAux_spec :
    ∀ (vs : List (Nat × Rec)) (prev : Nat × Rec) (j : Nat) {i k : Nat},
      (i, k) ∈ buildMapAux prev j vs →
      j ≤ k ∧ k - j < (prev.2 :: buildDataAux prev vs).length ∧
        ∃ r, (i, r) ∈ vs ∧ (prev.2 :: buildDataAux prev vs).getD (k - j) [] = r
  | [], _, _, _, _, h => by simp [buildMapAux] at h
  | v :: vs, prev, j, i, k, h => by
    rw [buildMapAux] at h
    cases heq : bytesEq prev.2 v.2 with
    | true =>
      rw [heq, if_pos rfl] at h
      have hpe : prev.2 = v.2 := bytesEq_iff.mp heq
      rw [buildDataAux, heq, if_pos rfl]
      rcases List.mem_cons.mp h with hhd | htl
      · have h1 : i = v.1 := congrArg Prod.fst hhd
        have h2 : k = j := congrArg Prod.snd hhd
        subst h1
        subst h2
        refine ⟨le_refl _, by simp, v.2, List.mem_cons_self _ _, ?_⟩
        simp [hpe]
      · rcases buildMapAux_spec vs v j htl with ⟨hle, hbound, r, hmem, hget⟩
        refine ⟨hle, ?_, r, List.mem_cons_of_mem _ hmem, ?_⟩
        · simpa [hpe] using hbound
        · rw [hpe]
          exact hget
    | false =>
      rw [heq] at h
      simp only [Bool.false_eq_true, if_false] at h
      rw [buildDataAux, heq]
      simp only [Bool.false_eq_true, if_false]
      rcases List.mem_cons.mp h with hhd | htl
      · have h1 : i = v.1 := congrArg Prod.fst hhd
        have h2 : k = j + 1 := congrArg Prod.snd hhd
        subst h1
        subst h2
        refine ⟨by omega, by simp, v.2, List.mem_cons_self _ _, ?_⟩
        have : j + 1 - j = 1 := by omega
        rw [this]
        simp
      · rcases buildMapAux_spec vs v (j + 1) htl with ⟨hle, hbound, r, hmem, hget⟩
        refine ⟨by omega, ?_, r, List.mem_cons_of_mem _ hmem, ?_⟩
        · simp only [List.length_cons] at hbound ⊢
          omega
        · have hkj : k - j = (k - (j + 1)) + 1 := by omega
          rw [hkj, List.getD_cons_succ]
          exact hget

theorem vertexMapOf_spec {sorted : List (Nat × Rec)} {i k : Nat}
    (h : (i, k) ∈ vertexMapOf sorted) :
    k < (newDataOf sorted).length ∧
      ∃ r, (i, r) ∈ sorted ∧ (newDataOf sorted).getD k [] = r := by
  cases sorted with
  | nil => simp [vertexMapOf] at h
  | cons v vs =>
    rw [vertexMapOf] at h
    rw [newDataOf]
    rcases List.mem_cons.mp h with hhd | htl
    · have h1 : i = v.1 := congrArg Prod.fst hhd
      have h2 : k = 0 := congrArg Prod.snd hhd
      subst h1
      subst h2
      exact ⟨by simp, v.2, List.mem_cons_self _ _, by simp⟩
    · rcases buildMapAux_spec vs v 0 htl with ⟨_, hbound, r, hmem, hget⟩
      rw [Nat.sub_zero] at hbound hget
      exact ⟨hbound, r, List.mem_cons_of_mem _ hmem, hget⟩

theorem uniquify_lookup {m : Mesh} {i : Nat} (hi : i < m.vertexData.length) :
    lookupMap (vertexMapOf (List.insertionSort RecLe (mkVertices m))) i <
        (newDataOf (List.insertionSort RecLe (mkVertices m))).length ∧
      (newDataOf (List.insertionSort RecLe (mkVertices m))).getD
          (lookupMap (vertexMapOf (List.insertionSort RecLe (mkVertices m))) i) [] =
        m.vertexData.getD i [] := by
  have hperm : (List.insertionSort RecLe (mkVertices m)).Perm (mkVertices m) :=
    List.perm_insertionSort _ _
  have hkeys : i ∈ (vertexMapOf (List.insertionSort RecLe (mkVertices m))).map
      (fun e => e.1) := by
    rw [vertexMapOf_keys]
    have : i ∈ (mkVertices m).map (fun v => v.1) := by
      rw [map_fst_mkVertices]
      exact List.mem_range.mpr hi
    exact (hperm.map (fun v => v.1)).mem_iff.mpr this
  have hmem := lookupMap_mem _ i hkeys
  rcases vertexMapOf_spec hmem with ⟨hbound, r, hsorted, hget⟩
  have hmk : (i, r) ∈ mkVertices m := hperm.mem_iff.mp hsorted
  have hrec : r = m.vertexData.getD i [] := (mem_mkVertices.mp hmk).2
  exact ⟨hbound, by rw [hget, hrec]⟩

theorem uniquifyVertices_eq_or (m : Mesh) :
    uniquifyVertices m = m ∨
      uniquifyVertices m =
        { m with
          vertexData := newDataOf (List.insertionSort RecLe (mkVertices m)),
          groups := m.groups.map fun g =>
            { g with
              indices := g.indices.map
                (lookupMap (vertexMapOf (List.insertionSort RecLe (mkVertices m)))) } } := by
  unfold uniquifyVertices
  by_cases h0 : m.vertexData.length = 0
  · exact Or.inl (by rw [if_pos h0])
  · rw [if_neg h0]
    by_cases hcu :
        countUnique (List.insertionSort RecLe (mkVertices m)) = m.vertexData.length
    · exact Or.inl (by simp only [hcu, if_pos])
    · exact Or.inr (by simp only [hcu, if_neg, if_false])

theorem uniquifyVertices_bounds {m : Mesh} (h : meshIndexInv m) :
    meshIndexInv (uniquifyVertices m) := by
  rcases uniquifyVertices_eq_or m with he | he
  · rw [he]
    exact h
  · rw [he]
    intro g hg i hi
    rcases List.mem_map.mp hg with ⟨g0, hg0, rfl⟩
    rcases List.mem_map.mp hi with ⟨i0, hi0, rfl⟩
    exact (uniquify_lookup (h g0 hg0 i0 hi0)).1

/-- C4: deduplication is idempotent: applying uniquifyVertices twice gives the
same mesh as applying it once (equality of meshes covers the vertex count, the
vertex records and every primitive group's indices), and a mesh whose records
are already pairwise distinct is returned unchanged by the first call. -/
theorem uniquifyVertices_idempotent :
    ∀ m : Mesh,
      uniquifyVertices (uniquifyVertices m) = uniquifyVertices m ∧
        (m.vertexData.Nodup → uniquifyVertices m = m) := by
  intro m
  refine ⟨?_, uniquifyVertices_eq_self⟩
  rcases uniquifyVertices_eq_or m with he | he
  · rw [he, he]
  · have hnd : (uniquifyVertices m).vertexData.Nodup := by
      rw [he]
      exact nodup_newDataOf_sorted m
    exact uniquifyVertices_eq_self hnd

/-- Witness for C4 at a concrete mesh whose two records are distinct: the
hypothesis of the second conjunct is discharged by evaluation. -/
theorem uniquifyVertices_idempotent_witness : uniquifyVertices c4mesh = c4mesh :=
  (uniquifyVertices_idempotent c4mesh).2 (by decide)

/-- C5: on a mesh whose primitive-group indices are in bounds, deduplication
preserves the realised triangles of every primitive group: reading each
group's triangles as 3-tuples of vertex records through the group's kind and
the vertex buffer yields the same sequence, group by group, before and after
uniquifyVertices. -/
theorem uniquifyVertices_preserves_triangles :
    ∀ m : Mesh, meshIndexInv m →
      (uniquifyVertices m).groups.map (fun g =>
          groupTriples g.prim
            (g.indices.map fun i => (uniquifyVertices m).vertexData.getD i [])) =
        m.groups.map fun g =>
          groupTriples g.prim (g.indices.map fun i => m.vertexData.getD i []) := by
  intro m h
  rcases uniquifyVertices_eq_or m with he | he
  · rw [he]
  · rw [he]
    simp only [List.map_map]
    apply List.map_congr_left
    intro g hg
    simp only [Function.comp]
    congr 1
    rw [List.map_map]
    apply List.map_congr_left
    intro i hi
    simp only [Function.comp]
    exact (uniquify_lookup (h g hg i hi)).2

/-- Witness for C5 at a concrete mesh with a duplicated record; the bounds
hypothesis is discharged by evaluation. -/
theorem uniquifyVertices_preserves_triangles_witness :
    (uniquifyVertices c5mesh).groups.map (fun g =>
        groupTriples g.prim
          (g.indices.map fun i => (uniquifyVertices c5mesh).vertexData.getD i [])) =
      c5mesh.groups.map (fun g =>
        groupTriples g.prim (g.indices.map fun i => c5mesh.vertexData.getD i [])) :=
  uniquifyVertices_preserves_triangles c5mesh (by decide)

theorem checkedFaceCount_eq {g : PrimitiveGroup} {a : Nat}
    (h : checkedFaceCount g = some a) : groupFaceCount g = a := by
  unfold checkedFaceCount at h
  unfold groupFaceCount
  cases hgp : g.prim with
  | triList =>
    rw [hgp] at h
    simp at h ⊢
    omega
  | triStrip =>
    rw [hgp] at h
    simp at h ⊢
    omega
  | triFan =>
    rw [hgp] at h
    simp at h ⊢
    omega
  | invalidPrimitiveGroupType =>
    rw [hgp] at h
    simp at h

theorem meshFaceCount_sum :
    ∀ {gs : List PrimitiveGroup} {nf : Nat}, meshFaceCount gs = some nf →
      (gs.map groupFaceCount).sum = nf := by
  intro gs
  induction gs with
  | nil => intro nf h; simp [meshFaceCount] at h; simp [h]
  | cons g gs ih =>
    intro nf h
    rw [meshFaceCount] at h
    cases hc : checkedFaceCount g with
    | none => rw [hc] at h; simp at h
    | some a =>
      cases hm : meshFaceCount gs with
      | none => rw [hc, hm] at h; simp at h
      | some b =>
        rw [hc, hm] at h
        simp only [Option.some.injEq] at h
        rw [List.map_cons, List.sum_cons, checkedFaceCount_eq hc, ih hm, h]

theorem buildTriListGroups_eq :
    ∀ (gs : List PrimitiveGroup) (off : Nat),
      buildTriListGroups off gs =
        (List.range gs.length).map fun k =>
          ⟨.triList, (gs.getD k default).materialIndex,
            List.range' (off + ((gs.take k).map groupFaceCount).sum * 3)
              (groupFaceCount (gs.getD k default) * 3)⟩
  | [], _ => rfl
  | g :: gs, off => by
    rw [buildTriListGroups, List.length_cons, List.range_succ_eq_map, List.map_cons,
      List.map_map, buildTriListGroups_eq gs (off + groupFaceCount g * 3)]
    refine congrArg₂ List.cons ?_ ?_
    · simp
    · apply List.map_congr_left
      intro k hk
      simp only [Function.comp]
      have h1 : (g :: gs).getD (k + 1) default = gs.getD k default :=
        List.getD_cons_succ
      have h3 : off + groupFaceCount g * 3 +
          ((gs.take k).map groupFaceCount).sum * 3 =
          off + (((g :: gs).take (k + 1)).map groupFaceCount).sum * 3 := by
        rw [List.take_succ_cons, List.map_cons, List.sum_cons]
        ring
      rw [h1, h3]

theorem buildTriListGroups_total :
    ∀ (gs : List PrimitiveGroup) (off : Nat),
      ((buildTriListGroups off gs).map fun g => g.indices.length).sum =
        (gs.map groupFaceCount).sum * 3
  | [], _ => rfl
  | g :: gs, off => by
    rw [buildTriListGroups, List.map_cons, List.sum_cons,
      buildTriListGroups_total gs (off + groupFaceCount g * 3), List.map_cons,
      List.sum_cons]
    simp only [List.length_range']
    ring

theorem buildTriListGroups_bounds :
    ∀ (gs : List PrimitiveGroup) (off nf : Nat), meshFaceCount gs = some nf →
      ∀ g' ∈ buildTriListGroups off gs, ∀ i ∈ g'.indices, i < off + nf * 3
  | [], _, _, _, _, hg => by simp [buildTriListGroups] at hg
  | g :: gs, off, nf, h, g', hg => by
    rw [meshFaceCount] at h
    cases hc : checkedFaceCount g with
    | none => rw [hc] at h; simp at h
    | some a =>
      cases hm : meshFaceCount gs with
      | none => rw [hc, hm] at h; simp at h
      | some b =>
        rw [hc, hm] at h
        simp only [Option.some.injEq] at h
        rw [buildTriListGroups] at hg
        rcases List.mem_cons.mp hg with rfl | htl
        · intro i hi
          have := (List.mem_range'_1.mp hi).2
          rw [checkedFaceCount_eq hc] at this
          omega
        · intro i hi
          have := buildTriListGroups_bounds gs (off + groupFaceCount g * 3) b hm g' htl i hi
          rw [checkedFaceCount_eq hc] at this
          omega

theorem triListTriples_length {β : Type} :
    ∀ l : List β, (triListTriples l).length = l.length / 3
  | [] => by simp [triListTriples]
  | [_] => by simp [triListTriples]
  | [_, _] => by simp [triListTriples]
  | _ :: _ :: _ :: rest => by
    rw [triListTriples]
    simp only [List.length_cons, triListTriples_length rest]
    omega

theorem triStripAux_length {β : Type} :
    ∀ (e : Bool) (a b : β) (l : List β), (triStripAux e a b l).length = l.length
  | _, _, _, [] => rfl
  | e, a, b, c :: rest => by
    rw [triStripAux]
    simp [triStripAux_length (!e) b c rest]

theorem triStripTriples_length {β : Type} :
    ∀ l : List β, (triStripTriples l).length = l.length - 2
  | [] => rfl
  | [_] => rfl
  | a :: b :: rest => by
    rw [triStripTriples, triStripAux_length]
    simp

theorem triFanAux_length {β : Type} :
    ∀ (hub prev : β) (l : List β), (triFanAux hub prev l).length = l.length
  | _, _, [] => rfl
  | hub, prev, c :: rest => by
    rw [triFanAux]
    simp [triFanAux_length hub c rest]

theorem triFanTriples_length {β : Type} :
    ∀ l : List β, (triFanTriples l).length = l.length - 2
  | [] => rfl
  | [_] => rfl
  | a :: b :: rest => by
    rw [triFanTriples, triFanAux_length]
    simp

theorem groupTriples_length_of_checked {g : PrimitiveGroup} {a : Nat}
    (h : checkedFaceCount g = some a) :
    (groupTriples g.prim g.indices).length = a := by
  unfold checkedFaceCount at h
  unfold groupTriples
  cases hgp : g.prim with
  | triList =>
    rw [hgp] at h
    simp at h
    simp only [triListTriples_length]
    omega
  | triStrip =>
    rw [hgp] at h
    simp at h
    simp only [triStripTriples_length]
    omega
  | triFan =>
    rw [hgp] at h
    simp at h
    simp only [triFanTriples_length]
    omega
  | invalidPrimitiveGroupType =>
    rw [hgp] at h
    simp at h

theorem extractFaces_length_aux :
    ∀ (gs : List PrimitiveGroup) (nf : Nat), meshFaceCount gs = some nf →
      ((gs.flatMap fun g => groupTriples g.prim g.indices)).length = nf
  | [], nf, h => by
    simp [meshFaceCount] at h
    simp [h]
  | g :: gs, nf, h => by
    rw [meshFaceCount] at h
    cases hc : checkedFaceCount g with
    | none => rw [hc] at h; simp at h
    | some a =>
      cases hm : meshFaceCount gs with
      | none => rw [hc, hm] at h; simp at h
      | some b =>
        rw [hc, hm] at h
        simp only [Option.some.injEq] at h
        rw [List.flatMap_cons, List.length_append,
          groupTriples_length_of_checked hc, extractFaces_length_aux gs b hm, h]

theorem extractFaces_length {m : Mesh} {nf : Nat}
    (h : meshFaceCount m.groups = some nf) : (extractFaces m).length = nf :=
  extractFaces_length_aux m.groups nf h

/-- C3: when generateNormals accepts a mesh, the output mesh has one TriList
group per input primitive group, in the input order, reusing each input
group's material index; the k-th output group's index buffer is the block of
consecutive indices of length 3 times that group's face count starting where
the previous block ended; and the total output index count is 3 times the
number of extracted faces. -/
theorem generateNormals_group_structure :
    ∀ m m' : Mesh, generateNormals m = some m' →
      m'.groups =
        ((List.range m.groups.length).map fun k =>
          ⟨.triList, (m.groups.getD k default).materialIndex,
            List.range' (((m.groups.take k).map groupFaceCount).sum * 3)
              (groupFaceCount (m.groups.getD k default) * 3)⟩) ∧
        (m'.groups.map fun g => g.indices.length).sum = (extractFaces m).length * 3 := by
  intro m m' h
  unfold generateNormals at h
  by_cases hpos : (m.vertexDesc.getAttribute .position).format ≠ .float3
  · rw [if_pos hpos] at h
    exact absurd h (by simp)
  · rw [if_neg hpos] at h
    cases hmf : meshFaceCount m.groups with
    | none =>
      rw [hmf] at h
      exact absurd h (by simp)
    | some nf =>
      rw [hmf] at h
      simp only [Option.some.injEq] at h
      rw [← h]
      constructor
      · rw [buildTriListGroups_eq]
        apply List.map_congr_left
        intro k hk
        rw [Nat.zero_add]
      · rw [buildTriListGroups_total, extractFaces_length hmf, meshFaceCount_sum hmf]

/-- Witness for C3 at a concrete mesh carrying a triangle list and a triangle
fan; the success hypothesis is discharged by evaluation. -/
theorem generateNormals_group_structure_witness :
    ((generateNormals c3mesh).getD default).groups =
      ((List.range c3mesh.groups.length).map fun k =>
        ⟨.triList, (c3mesh.groups.getD k default).materialIndex,
          List.range' (((c3mesh.groups.take k).map groupFaceCount).sum * 3)
            (groupFaceCount (c3mesh.groups.getD k default) * 3)⟩) ∧
      (((generateNormals c3mesh).getD default).groups.map fun g =>
        g.indices.length).sum = (extractFaces c3mesh).length * 3 :=
  generateNormals_group_structure c3mesh ((generateNormals c3mesh).getD default)
    (by decide)

theorem generateNormals_bounds {m m' : Mesh} (h : generateNormals m = some m') :
    meshIndexInv m' := by
  unfold generateNormals at h
  by_cases hpos : (m.vertexDesc.getAttribute .position).format ≠ .float3
  · rw [if_pos hpos] at h
    exact absurd h (by simp)
  · rw [if_neg hpos] at h
    cases hmf : meshFaceCount m.groups with
    | none =>
      rw [hmf] at h
      exact absurd h (by simp)
    | some nf =>
      rw [hmf] at h
      simp only [Option.some.injEq] at h
      rw [← h]
      intro g hg i hi
      have := buildTriListGroups_bounds m.groups 0 nf hmf g hg i hi
      simp only [List.length_replicate]
      omega

theorem tangentFaceCount_none_iff :
    ∀ gs : List PrimitiveGroup,
      tangentFaceCount gs = none ↔ ∃ g ∈ gs, g.prim ≠ .triList
  | [] => by simp [tangentFaceCount]
  | g :: gs => by
    rw [tangentFaceCount]
    by_cases hp : g.prim = .triList
    · rw [if_pos hp]
      cases ht : tangentFaceCount gs with
      | none =>
        constructor
        · intro _
          rcases (tangentFaceCount_none_iff gs).mp ht with ⟨g0, hg0, hgp0⟩
          exact ⟨g0, List.mem_cons_of_mem _ hg0, hgp0⟩
        · intro _
          rfl
      | some b =>
        constructor
        · intro hcontra
          simp at hcontra
        · rintro ⟨g0, hg0, hgp0⟩
          rcases List.mem_cons.mp hg0 with rfl | h2
          · exact absurd hp hgp0
          · have := (tangentFaceCount_none_iff gs).mpr ⟨g0, h2, hgp0⟩
            rw [this] at ht
            exact absurd ht (by simp)
    · rw [if_neg hp]
      constructor
      · intro _
        exact ⟨g, List.mem_cons_self _ _, hp⟩
      · intro _
        rfl

theorem tangentGroups_bounds :
    ∀ (gs : List PrimitiveGroup) (off nf : Nat), tangentFaceCount gs = some nf →
      ∀ g' ∈ buildTriListGroups off gs, ∀ i ∈ g'.indices, i < off + nf * 3
  | [], _, _, _, _, hg => by simp [buildTriListGroups] at hg
  | g :: gs, off, nf, h, g', hg => by
    rw [tangentFaceCount] at h
    by_cases hp : g.prim = .triList
    · rw [if_pos hp] at h
      cases ht : tangentFaceCount gs with
      | none =>
        rw [ht] at h
        simp at h
      | some b =>
        rw [ht] at h
        simp only [Option.some.injEq] at h
        have hfc : groupFaceCount g = g.indices.length / 3 := by
          unfold groupFaceCount
          rw [hp]
        rw [buildTriListGroups] at hg
        rcases List.mem_cons.mp hg with rfl | htl
        · intro i hi
          have := (List.mem_range'_1.mp hi).2
          rw [hfc] at this
          omega
        · intro i hi
          have := tangentGroups_bounds gs (off + groupFaceCount g * 3) b ht g' htl i hi
          rw [hfc] at this
          omega
    · rw [if_neg hp] at h
      simp at h

theorem generateTangents_bounds {m m' : Mesh} (h : generateTangents m = some m') :
    meshIndexInv m' := by
  unfold generateTangents at h
  split_ifs at h
  cases ht : tangentFaceCount m.groups with
  | none =>
    rw [ht] at h
    exact absurd h (by simp)
  | some nf =>
    rw [ht] at h
    simp only [Option.some.injEq] at h
    rw [← h]
    intro g hg i hi
    have := tangentGroups_bounds m.groups 0 nf ht g hg i hi
    simp only [List.length_replicate]
    omega

/-- C7: generateTangents fails exactly when the position attribute is not
Float3, or the normal attribute is not Float3, or the Texture0 attribute is
absent (the invalid-format marker) or not Float2, or some primitive group is
not a triangle list; on every mesh passing all of these prerequisites it
produces a mesh. -/
theorem generateTangents_fails_iff :
    ∀ m : Mesh,
      generateTangents m = none ↔
        ((m.vertexDesc.getAttribute .position).format ≠ .float3 ∨
          (m.vertexDesc.getAttribute .normal).format ≠ .float3 ∨
          (m.vertexDesc.getAttribute .texture0).format = .invalidFormat ∨
          (m.vertexDesc.getAttribute .texture0).format ≠ .float2 ∨
          ∃ g ∈ m.groups, g.prim ≠ .triList) := by
  intro m
  unfold generateTangents
  split_ifs with h1 h2 h3 h4
  · simp [h1]
  · simp [h1, h2]
  · simp [h1, h2, h3]
  · simp [h1, h2, h3, h4]
  · cases ht : tangentFaceCount m.groups with
    | none =>
      have hex := (tangentFaceCount_none_iff m.groups).mp ht
      simp [h1, h2, h3, h4, hex]
    | some nf =>
      have hng : ¬∃ g ∈ m.groups, g.prim ≠ .triList := by
        intro hex
        rw [(tangentFaceCount_none_iff m.groups).mpr hex] at ht
        exact absurd ht (by simp)
      simp [h1, h2, h3, h4, hng]

theorem addGroupWithOffset_spec (m : Mesh) (g : PrimitiveGroup) (off : Nat) :
    addGroupWithOffset m g off =
      { m with
        groups := m.groups ++
          (if g.indices.length = 0 then []
            else [⟨g.prim, g.materialIndex, g.indices.map (· + off)⟩]) } := by
  unfold addGroupWithOffset
  split_ifs with h
  · simp
  · rfl

theorem foldl_addGroup_spec :
    ∀ (gs : List PrimitiveGroup) (acc : Mesh) (off : Nat),
      gs.foldl (fun a g => addGroupWithOffset a g off) acc =
        { acc with
          groups := acc.groups ++ gs.filterMap fun g =>
            if g.indices.length = 0 then none
            else some ⟨g.prim, g.materialIndex, g.indices.map (· + off)⟩ }
  | [], acc, off => by simp
  | g :: gs, acc, off => by
    rw [List.foldl_cons, foldl_addGroup_spec gs _ off, addGroupWithOffset_spec,
      List.filterMap_cons]
    by_cases h : g.indices.length = 0
    · rw [if_pos h, if_pos h]
      simp
    · rw [if_neg h, if_neg h]
      simp

theorem mergeMeshLoop_spec :
    ∀ (rs : List Mesh) (acc : Mesh) (off : Nat),
      mergeMeshLoop acc off rs =
        { acc with groups := acc.groups ++ mergedGroupsSpec off rs }
  | [], acc, off => by simp [mergeMeshLoop, mergedGroupsSpec]
  | mesh :: rest, acc, off => by
    rw [mergeMeshLoop, mergedGroupsSpec, foldl_addGroup_spec,
      mergeMeshLoop_spec rest _ (off + mesh.vertexData.length)]
    simp

theorem mergeRunMesh_groups (rs : List Mesh) :
    (mergeRunMesh rs).groups = mergedGroupsSpec 0 rs := by
  unfold mergeRunMesh
  rw [mergeMeshLoop_spec]
  simp

theorem mergeRunMesh_data (rs : List Mesh) :
    (mergeRunMesh rs).vertexData = (rs.map fun x => x.vertexData).flatten := by
  unfold mergeRunMesh
  rw [mergeMeshLoop_spec]

/-- C10: for every model, each merged mesh's group list is exactly the
concatenation, over its source meshes in order, of the source groups that have
at least one index, rebased by the running vertex offset of their source mesh;
groups with no indices are omitted. -/
theorem mergeModelMeshes_omits_and_rebases :
    ∀ model : Model,
      (mergeModelMeshes model).meshes.map (fun M => M.groups) =
        (groupRuns (List.insertionSort MeshLe model.meshes)).map
          (mergedGroupsSpec 0) := by
  intro model
  unfold mergeModelMeshes
  rw [List.map_map]
  apply List.map_congr_left
  intro rs _
  exact mergeRunMesh_groups rs

theorem mergedGroupsSpec_bounds :
    ∀ (rs : List Mesh) (off : Nat),
      (∀ mesh ∈ rs, meshIndexInv mesh) →
      ∀ g ∈ mergedGroupsSpec off rs, ∀ i ∈ g.indices,
        i < off + (rs.map fun x => x.vertexData.length).sum
  | [], _, _, g, hg => by simp [mergedGroupsSpec] at hg
  | mesh :: rest, off, h, g, hg => by
    rw [mergedGroupsSpec] at hg
    rcases List.mem_append.mp hg with hin | hin
    · rcases List.mem_filterMap.mp hin with ⟨g0, hg0, hsome⟩
      by_cases hz : g0.indices.length = 0
      · rw [if_pos hz] at hsome
        simp at hsome
      · rw [if_neg hz] at hsome
        simp only [Option.some.injEq] at hsome
        rw [← hsome]
        intro i hi
        rcases List.mem_map.mp hi with ⟨i0, hi0, rfl⟩
        have := h mesh (List.mem_cons_self _ _) g0 hg0 i0 hi0
        simp only [List.map_cons, List.sum_cons]
        omega
    · intro i hi
      have := mergedGroupsSpec_bounds rest (off + mesh.vertexData.length)
        (fun x hx => h x (List.mem_cons_of_mem _ hx)) g hin i hi
      simp only [List.map_cons, List.sum_cons] at this ⊢
      omega

theorem groupRuns_mem :
    ∀ (l : List Mesh), ∀ rs ∈ groupRuns l, ∀ x ∈ rs, x ∈ l
  | [] => by simp [groupRuns]
  | m :: rest => by
    intro rs hrs x hx
    rw [groupRuns] at hrs
    rcases List.mem_cons.mp hrs with rfl | htl
    · rcases List.mem_cons.mp hx with rfl | hx2
      · exact List.mem_cons_self _ _
      · exact List.mem_cons_of_mem _ ((List.takeWhile_sublist _).subset hx2)
    · have := groupRuns_mem (rest.dropWhile fun x => descEq x.vertexDesc m.vertexDesc)
        rs htl x hx
      exact List.mem_cons_of_mem _ ((List.dropWhile_sublist _).subset this)
termination_by l => l.length
decreasing_by
  exact Nat.lt_succ_of_le (List.dropWhile_sublist _ (l := rest)).length_le

theorem mergeModelMeshes_bounds {model : Model}
    (h : ∀ m ∈ model.meshes, meshIndexInv m) :
    ∀ m' ∈ (mergeModelMeshes model).meshes, meshIndexInv m' := by
  intro m' hm'
  unfold mergeModelMeshes at hm'
  simp only [List.mem_map] at hm'
  rcases hm' with ⟨rs, hrs, rfl⟩
  intro g hg i hi
  rw [mergeRunMesh_groups] at hg
  have hall : ∀ mesh ∈ rs, meshIndexInv mesh := by
    intro mesh hmesh
    have h1 : mesh ∈ List.insertionSort MeshLe model.meshes :=
      groupRuns_mem _ rs hrs mesh hmesh
    exact h mesh ((List.perm_insertionSort MeshLe model.meshes).mem_iff.mp h1)
  have hb := mergedGroupsSpec_bounds rs 0 hall g hg i hi
  rw [mergeRunMesh_data, List.length_flatten, List.map_map]
  simpa using hb

/-- C1: each transformation preserves the index-bounds invariant: a mesh whose
group indices are all below its vertex count keeps that property through
uniquifyVertices; every mesh produced by generateNormals or generateTangents
satisfies it outright; and every mesh of the model produced by
mergeModelMeshes satisfies it whenever every input mesh does. -/
theorem transformations_indices_in_bounds :
    (∀ m : Mesh, meshIndexInv m → meshIndexInv (uniquifyVertices m)) ∧
      (∀ m m' : Mesh, generateNormals m = some m' → meshIndexInv m') ∧
      (∀ m m' : Mesh, generateTangents m = some m' → meshIndexInv m') ∧
      (∀ model : Model, (∀ m ∈ model.meshes, meshIndexInv m) →
        ∀ m' ∈ (mergeModelMeshes model).meshes, meshIndexInv m') :=
  ⟨fun _ => uniquifyVertices_bounds, fun _ _ => generateNormals_bounds,
    fun _ _ => generateTangents_bounds, fun _ => mergeModelMeshes_bounds⟩

/-- Witness for C1: the four conjuncts applied at concrete inputs, with every
hypothesis discharged by evaluation. -/
theorem transformations_indices_in_bounds_witness :
    meshIndexInv (uniquifyVertices c5mesh) ∧
      meshIndexInv ((generateNormals c3mesh).getD default) ∧
      meshIndexInv ((generateTangents c7mesh).getD default) ∧
      ∀ m' ∈ (mergeModelMeshes c1model).meshes, meshIndexInv m' :=
  ⟨transformations_indices_in_bounds.1 c5mesh (by decide),
    transformations_indices_in_bounds.2.1 c3mesh _ (by decide),
    transformations_indices_in_bounds.2.2.1 c7mesh _ (by decide),
    transformations_indices_in_bounds.2.2.2 c1model (by decide)⟩

/-- C2: the vertex-description comparison evaluated at a concrete pair of
well-formed descriptions returns true in both directions, because the slip on
line 378 compares b.nAttributes with itself and so the case in which the first
description has more attributes than the second falls through to the pairwise
attribute loop; an asymmetry violation means the comparison is not the stated
lexicographic order and not a strict weak ordering.  Under the stated order
the second description, having fewer attributes at equal stride, would
strictly precede the first. -/
theorem descLt_not_asymmetric_at_input :
    descLt c2descA c2descB = true ∧ descLt c2descB c2descA = true := by decide

/-- C6 counterexample: with smoothing threshold 0, the neighbour face's normal
has dot product exactly 0 with this face's normal, and the accumulated sum
over the adjacency of both faces is this face's normal alone, not the value
that would include the tying neighbour; a tie at the threshold is excluded,
refuting the claim that it is included. -/
theorem averageFaceVectors_tie_excluded_at_input :
    dotV c6n0 c6n1 = 0 ∧
      averageFaceVectorsSum [c6n0, c6n1] 0 [0, 1] 0 = c6n0 ∧
      averageFaceVectorsSum [c6n0, c6n1] 0 [0, 1] 0 ≠ addV c6n0 c6n1 := by
  refine ⟨by norm_num [dotV, c6n0, c6n1], ?_, ?_⟩
  · norm_num [averageFaceVectorsSum, c6n0, c6n1, dotV, addV, zeroV]
  · norm_num [averageFaceVectorsSum, c6n0, c6n1, dotV, addV, zeroV]

/-- C6 as amended: a neighbouring face other than the face itself whose
face-normal dot product with this face's normal exactly equals the smoothing
threshold contributes nothing to the averaged sum: removing it from the
adjacency list leaves the accumulated sum unchanged, since inclusion requires
a strictly greater dot product or identity with the face. -/
theorem averageFaceVectors_tie_contributes_nothing :
    ∀ (faces : List Vec3) (t : Nat) (c : ℚ) (g : Nat) (pre post : List Nat),
      g ≠ t → dotV (faces.getD t zeroV) (faces.getD g zeroV) = c →
      averageFaceVectorsSum faces t (pre ++ g :: post) c =
        averageFaceVectorsSum faces t (pre ++ post) c := by
  intro faces t c g pre post hne hdot
  unfold averageFaceVectorsSum
  rw [List.foldl_append, List.foldl_append, List.foldl_cons]
  congr 1
  rw [if_neg]
  rintro (h | h)
  · exact hne h
  · rw [hdot] at h
    exact lt_irrefl c h

/-- Witness for the amended C6 at the concrete tie input. -/
theorem averageFaceVectors_tie_contributes_nothing_witness :
    averageFaceVectorsSum [c6n0, c6n1] 0 ([0] ++ 1 :: []) 0 =
      averageFaceVectorsSum [c6n0, c6n1] 0 ([0] ++ []) 0 :=
  averageFaceVectors_tie_contributes_nothing [c6n0, c6n1] 0 0 1 [0] []
    (by decide) (by norm_num [dotV, c6n0, c6n1, zeroV])

/-- C8 counterexample: the schema with stride 16 and a single Float3 position
at offset 4 already contains the requested (Position, Float3) attribute, yet
augmentation re-packs it to offset 0 and stride 12, so the result differs from
the input; the claim fails on schemas whose offsets or stride are not already
the packed layout. -/
theorem augment_changes_unpacked_schema :
    (⟨.position, .float3, 4⟩ : VertexAttribute) ∈ c8desc.attributes ∧
      augmentVertexDescription c8desc .position .float3 ≠ c8desc := by decide

theorem augmentLoop_of_present :
    ∀ (l : List VertexAttribute) (semantic : VertexAttributeSemantic)
      (format : VertexAttributeFormat) (s : Nat),
      packedFrom s l = true →
      (∀ a ∈ l, a.semantic = semantic → a.format = format) →
      augmentLoop semantic format l s =
        (l, s + sizeSum l, l.any fun a => decide (a.semantic = semantic))
  | [], sem, fmt, s, _, _ => by simp [augmentLoop, sizeSum]
  | a :: l, sem, fmt, s, hp, hf => by
    rw [augmentLoop]
    have hskip : ¬(a.semantic = sem ∧ a.format ≠ fmt) := by
      rintro ⟨h1, h2⟩
      exact h2 (hf a (List.mem_cons_self _ _) h1)
    rw [if_neg hskip]
    rw [packedFrom] at hp
    simp only [Bool.and_eq_true, decide_eq_true_eq] at hp
    obtain ⟨hoff, hrest⟩ := hp
    rw [augmentLoop_of_present l sem fmt (s + getVertexAttributeSize a.format) hrest
      (fun x hx => hf x (List.mem_cons_of_mem _ hx))]
    have ha : (⟨a.semantic, a.format, s⟩ : VertexAttribute) = a := by
      cases a
      simp only at hoff ⊢
      rw [hoff]
    rw [ha]
    have hsum : s + getVertexAttributeSize a.format + sizeSum l = s + sizeSum (a :: l) := by
      simp [sizeSum]
      ring
    rw [hsum]
    simp [Bool.or_comm]

/-- C8 as amended: for every packed schema (each offset the running byte sum
of the preceding attribute sizes and the stride the total size) in which every
attribute carrying the requested semantic has the requested format and at
least one attribute carries it, augmenting with that (semantic, format) pair
returns a schema equal to the input. -/
theorem augment_packed_present_eq :
    ∀ (d : VertexDescription) (semantic : VertexAttributeSemantic)
      (format : VertexAttributeFormat),
      d.packed = true →
      (∀ a ∈ d.attributes, a.semantic = semantic → a.format = format) →
      (∃ a ∈ d.attributes, a.semantic = semantic) →
      augmentVertexDescription d semantic format = d := by
  intro d sem fmt hp hf hex
  unfold VertexDescription.packed at hp
  simp only [Bool.and_eq_true, decide_eq_true_eq] at hp
  obtain ⟨hp0, hstr⟩ := hp
  unfold augmentVertexDescription
  rw [augmentLoop_of_present d.attributes sem fmt 0 hp0 hf]
  have hany : (d.attributes.any fun a => decide (a.semantic = sem)) = true := by
    rcases hex with ⟨a, ha, hsem⟩
    exact List.any_eq_true.mpr ⟨a, ha, by simp [hsem]⟩
  simp only [hany, if_pos]
  cases d with
  | mk stride attributes =>
    simp only at hstr ⊢
    rw [hstr]
    simp

/-- Witness for the amended C8: the packed tangent-ready schema already
carries (Normal, Float3) and augmentation returns it unchanged. -/
theorem augment_packed_present_eq_witness :
    augmentVertexDescription tangentDesc .normal .float3 = tangentDesc :=
  augment_packed_present_eq tangentDesc .normal .float3 (by decide) (by decide)
    (by decide)

/-- C9: refutation at a concrete input: the mesh has four vertices and a
single triangle whose group indices are all in bounds, yet the welding pass
sizes its merge map at 3 entries (three per extracted face) and indexes it at
corner attribute index 3, which is not below the map size. -/
theorem joinVertices_merge_map_out_of_bounds :
    meshIndexInv c9mesh ∧
      joinVerticesMapSize (extractFaces c9mesh) = 3 ∧
      3 ∈ joinVerticesMapAccesses (extractFaces c9mesh) ∧
      ¬∀ a ∈ joinVerticesMapAccesses (extractFaces c9mesh),
        a < joinVerticesMapSize (extractFaces c9mesh) := by decide

end CmodFix
